import Mathlib

/- Verification of the scoring/selection pipeline of the Atticus news curator
   (main.py / config.py).  Python strings are modelled as lists of characters
   and each function of the source is translated one-to-one; I/O (feed
   transport, Google-Sheets sink, scheduler) is out of scope, so ingestion is
   modelled as a function of the already-retrieved feed entries. -/

open List

/- Python str.lower() on the ASCII range (the keyword table and all scoring
   comparisons are ASCII). -/
def pyLower (c : Char) : Char :=
  if 'A' ≤ c ∧ c ≤ 'Z' then Char.ofNat (c.toNat + 32) else c

/- Python substring test, s1 in s2. -/
def strIn (needle : List Char) : List Char → Bool
  | [] => needle.isEmpty
  | c :: rest => needle.isPrefixOf (c :: rest) || strIn needle rest

/- First substitution in clean_text, main.py line 130:
   re.sub applied with pattern <[^>]+>, replacing each match with the empty
   string.  A match is a < followed by at least one character other than >
   and then a >.  The scan is left to right, restarting after each removed
   match.  The recursion is driven by a fuel argument equal to the length of
   the input, which every step strictly decreases by at least one character,
   so the fuel is never exhausted. -/
def removeTagsAux : Nat → List Char → List Char
  | _, [] => []
  | 0, l => l
  | fuel + 1, c :: rest =>
    if c = '<' ∧ rest.takeWhile (fun d => d != '>') ≠ [] ∧ '>' ∈ rest then
      removeTagsAux fuel ((rest.dropWhile (fun d => d != '>')).tail)
    else
      c :: removeTagsAux fuel rest

def removeTags (l : List Char) : List Char := removeTagsAux l.length l

/- Second substitution in clean_text, main.py line 133: the source file
   contains the raw-string pattern backslash backslash s plus, which as a
   regular expression matches one literal backslash followed by one or more
   letters s (NOT runs of whitespace); each match is replaced by one space. -/
def subBackslashSAux : Nat → List Char → List Char
  | _, [] => []
  | 0, l => l
  | fuel + 1, c :: rest =>
    if c = '\\' ∧ rest.head? = some 's' then
      ' ' :: subBackslashSAux fuel (rest.dropWhile (fun d => d == 's'))
    else
      c :: subBackslashSAux fuel rest

def subBackslashS (l : List Char) : List Char := subBackslashSAux l.length l

/- Python str.replace for a two-character pattern (main.py line 136 replaces
   the two-character sequences backslash n and backslash r by a space; the
   source file holds doubled backslashes, so the pattern is two characters,
   not a newline character).  Non-overlapping, left to right. -/
def replacePair (a b r : Char) : List Char → List Char
  | [] => []
  | [c] => [c]
  | c :: d :: rest =>
    if c = a ∧ d = b then r :: replacePair a b r rest
    else c :: replacePair a b r (d :: rest)

/- Python str.strip() whitespace set (ASCII). -/
def pyIsSpace (c : Char) : Bool :=
  c == ' ' || c == '\t' || c == '\n' || c == '\r' || c == '\x0b' || c == '\x0c'

def pyStrip (l : List Char) : List Char :=
  ((l.dropWhile pyIsSpace).reverse.dropWhile pyIsSpace).reverse

/- clean_text, main.py lines 124-138. -/
def clean_text (text : List Char) : List Char :=
  if text = [] then []
  else
    pyStrip (replacePair '\\' 'r' ' '
      (replacePair '\\' 'n' ' '
        ((subBackslashS (removeTags text)).map (fun c => if c = '"' then '\'' else c))))

/- The keyword table, main.py lines 37-63, in dict-literal (= iteration)
   order. -/
def keywords : List (List Char × Nat) :=
  [("bitcoin options".data, 15),
   ("crypto options".data, 12),
   ("btc options".data, 15),
   ("perpetual futures".data, 10),
   ("defi options".data, 10),
   ("downside protection".data, 8),
   ("institutional crypto".data, 8),
   ("crypto derivatives".data, 9),
   ("btc etf".data, 7),
   ("volatility trading".data, 8),
   ("options trading".data, 12),
   ("web3".data, 5),
   ("hedging strategies".data, 7),
   ("risk management".data, 6),
   ("crypto volatility".data, 6),
   ("institutional adoption".data, 7),
   ("derivatives market".data, 8),
   ("digital assets".data, 4),
   ("crypto hedge".data, 6),
   ("portfolio protection".data, 7),
   ("trading infrastructure".data, 6),
   ("market making".data, 7),
   ("liquidity provision".data, 6),
   ("automated trading".data, 5),
   ("algorithmic trading".data, 5)]

/- calculate_article_score, main.py lines 140-162. -/
def calculate_article_score (title summary : List Char) : Nat × List (List Char) :=
  let content := (title ++ ' ' :: summary).map pyLower
  let base := List.foldl
    (fun acc kw => if strIn kw.1 content then (acc.1 + kw.2, acc.2 ++ [kw.1]) else acc)
    (0, []) keywords
  let score1 := if 1 < base.2.length then base.1 + base.2.length * 2 else base.1
  let title_lower := title.map pyLower
  let score2 := List.foldl
    (fun s kw => if strIn kw.1 title_lower then s + 3 else s) score1 keywords
  (score2, base.2)

/- Python slice l[:n] for a possibly negative bound n. -/
def pyTake (n : Int) (l : List Char) : List Char :=
  if 0 ≤ n then l.take n.toNat else l.take (l.length - n.natAbs)

/- The local variable combined of create_sample_copy, main.py lines 166-173. -/
def sample_combined (title summary : List Char) : List Char :=
  let clean_summary := clean_text summary
  if clean_summary.length < 50 then title ++ '.' :: ' ' :: clean_summary
  else clean_summary

/- create_sample_copy, main.py lines 164-179 (the source calls it with the
   default max_length = 140). -/
def create_sample_copy (title summary : List Char) (max_length : Nat) : List Char :=
  let combined := sample_combined title summary
  if max_length < combined.length then
    pyTake ((max_length : Int) - 3) combined ++ "...".data
  else combined

/- A raw feed entry as the ingestion loop of main.py reads it: entry.get with
   a fallback is modelled by an Option field. -/
structure Entry where
  idOpt : Option (List Char)
  link : List Char
  title : List Char
  summaryOpt : Option (List Char)
  descriptionOpt : Option (List Char)
  publishedOpt : Option (List Char)
deriving DecidableEq

/- The article dict built at main.py lines 214-223. -/
structure Article where
  id : List Char
  title : List Char
  link : List Char
  sample_copy : List Char
  score : Nat
  matched_keywords : List (List Char)
  published : List Char
  source : List Char
deriving DecidableEq

structure Feed where
  entries : List Entry
  titleOpt : Option (List Char)
deriving DecidableEq

/- entry.get('id', entry.link), main.py line 199. -/
def entryId (e : Entry) : List Char := e.idOpt.getD e.link

/- entry.get('summary', entry.get('description', '')), main.py line 205. -/
def entrySummary (e : Entry) : List Char :=
  e.summaryOpt.getD (e.descriptionOpt.getD [])

/- The body of the per-entry loop of fetch_articles_from_feed, main.py lines
   196-226: acc is the pair of the articles list and of the
   processed_articles set (modelled as a list of ids). -/
def process_entry (acc : List Article × List (List Char)) (src : List Char)
    (e : Entry) : List Article × List (List Char) :=
  let article_id := entryId e
  if article_id ∈ acc.2 then acc
  else
    let title := clean_text e.title
    let summary := clean_text (entrySummary e)
    let sm := calculate_article_score title summary
    if 8 ≤ sm.1 then
      (acc.1 ++ [⟨article_id, title, e.link, create_sample_copy title summary 140,
                  sm.1, sm.2, e.publishedOpt.getD "Unknown".data, src⟩],
       article_id :: acc.2)
    else acc

/- fetch_articles_from_feed, main.py lines 181-235, as a function of the
   already-parsed feed and of the dedup cache; it returns the emitted
   articles together with the updated cache. -/
def fetch_articles_from_feed (f : Feed) (processed : List (List Char)) :
    List Article × List (List Char) :=
  if f.entries = [] then ([], processed)
  else
    let src := f.titleOpt.getD "Unknown Source".data
    List.foldl (fun acc e => process_entry acc src e) ([], processed) (f.entries.take 10)

/- The per-feed collection loop of fetch_all_articles, main.py lines 239-251
   (all_articles.extend over the feeds, threading the dedup cache). -/
def ingest_all (feeds : List Feed) (cache : List (List Char)) :
    List Article × List (List Char) :=
  List.foldl (fun acc f =>
    let r := fetch_articles_from_feed f acc.2
    (acc.1 ++ r.1, r.2)) ([], cache) feeds

/- Python list.sort(key=lambda x: x['score'], reverse=True) is a stable sort,
   descending on the score: an element is placed before every
   lower-or-equal-scored element that was encountered later.  Modelled by a
   stable insertion sort. -/
def insertDesc (x : Article) : List Article → List Article
  | [] => [x]
  | y :: ys => if y.score ≤ x.score then x :: y :: ys else y :: insertDesc x ys

def sortByScoreDesc : List Article → List Article
  | [] => []
  | x :: xs => insertDesc x (sortByScoreDesc xs)

/- fetch_all_articles, main.py lines 237-257: collect, sort by score
   descending (stable), return the first 5. -/
def fetch_all_articles (feeds : List Feed) (cache : List (List Char)) : List Article :=
  (sortByScoreDesc (ingest_all feeds cache).1).take 5

/- cleanup_processed_articles, main.py lines 329-336: when more than 1000 ids
   are cached, keep the last 500 of them (list(...)[-500:]). -/
def cleanup_processed_articles (cache : List (List Char)) : List (List Char) :=
  if 1000 < cache.length then cache.drop (cache.length - 500) else cache

/- Concrete data for the witnesses. -/
def sampleEntry : Entry := ⟨none, "L".data, "btc options".data, none, none, none⟩

def sampleFeed : Feed := ⟨[sampleEntry], none⟩

def sampleArticle : Article :=
  ⟨"L".data, "btc options".data, "L".data, "btc options. ".data, 18,
   ["btc options".data], "Unknown".data, "Unknown Source".data⟩

def sampleCache : List (List Char) := List.replicate 1001 ['a']

/- Auxiliary facts about the embedded operations. -/

theorem strIn_nil_left (l : List Char) : strIn [] l = true := by
  cases l <;> simp [strIn]

theorem isPrefixOf_append_right (n z y : List Char) (h : n.isPrefixOf z = true) :
    n.isPrefixOf (z ++ y) = true := by
  induction n generalizing z with
  | nil => simp
  | cons a n ih =>
    cases z with
    | nil => simp [List.isPrefixOf] at h
    | cons b z =>
      simp only [List.isPrefixOf, List.cons_append, Bool.and_eq_true] at h ⊢
      exact ⟨h.1, ih z h.2⟩

theorem strIn_append_right (n x y : List Char) (h : strIn n x = true) :
    strIn n (x ++ y) = true := by
  induction x with
  | nil =>
    have hn : n = [] := by simpa [strIn, List.isEmpty_iff] using h
    subst hn
    exact strIn_nil_left y
  | cons c rest ih =>
    simp only [strIn, Bool.or_eq_true, List.cons_append] at h ⊢
    rcases h with h | h
    · exact Or.inl (isPrefixOf_append_right n (c :: rest) y h)
    · exact Or.inr (ih h)

theorem strIn_title_content (kw title summary : List Char)
    (h : strIn kw (title.map pyLower) = true) :
    strIn kw ((title ++ ' ' :: summary).map pyLower) = true := by
  have h2 := strIn_append_right kw (title.map pyLower) ((' ' :: summary).map pyLower) h
  simpa [List.map_append] using h2

theorem strIn_content_extend (kw title summary extra : List Char)
    (h : strIn kw ((title ++ ' ' :: summary).map pyLower) = true) :
    strIn kw ((title ++ ' ' :: (summary ++ extra)).map pyLower) = true := by
  have h2 := strIn_append_right kw ((title ++ ' ' :: summary).map pyLower)
    (extra.map pyLower) h
  have hl : title ++ ' ' :: (summary ++ extra) = (title ++ ' ' :: summary) ++ extra := by
    simp
  rw [hl, List.map_append]
  exact h2

theorem keywords_pos : ∀ kw ∈ keywords, 0 < kw.2 := by decide

theorem foldl_match_step (content : List Char) (kws : List (List Char × Nat))
    (s : Nat) (m : List (List Char)) :
    List.foldl
      (fun acc kw => if strIn kw.1 content then (acc.1 + kw.2, acc.2 ++ [kw.1]) else acc)
      (s, m) kws
    = (s + ((kws.filter (fun kw => strIn kw.1 content)).map (fun kw => kw.2)).sum,
       m ++ (kws.filter (fun kw => strIn kw.1 content)).map (fun kw => kw.1)) := by
  induction kws generalizing s m with
  | nil => simp
  | cons kw kws ih =>
    by_cases h : strIn kw.1 content = true
    · simp [List.foldl_cons, h, ih, List.filter_cons, Nat.add_assoc]
    · simp [List.foldl_cons, h, ih, List.filter_cons]

theorem foldl_title_bonus (tl : List Char) (kws : List (List Char × Nat)) (s : Nat) :
    List.foldl (fun s kw => if strIn kw.1 tl then s + 3 else s) s kws
    = s + 3 * (kws.filter (fun kw => strIn kw.1 tl)).length := by
  induction kws generalizing s with
  | nil => simp
  | cons kw kws ih =>
    by_cases h : strIn kw.1 tl = true
    · simp [List.foldl_cons, h, ih, List.filter_cons]
      omega
    · simp [List.foldl_cons, h, ih, List.filter_cons]

theorem score_closed_form (title summary : List Char) :
    calculate_article_score title summary
    = (((keywords.filter
          (fun kw => strIn kw.1 ((title ++ ' ' :: summary).map pyLower))).map
            (fun kw => kw.2)).sum
        + (if 1 < (keywords.filter
              (fun kw => strIn kw.1 ((title ++ ' ' :: summary).map pyLower))).length
           then 2 * (keywords.filter
              (fun kw => strIn kw.1 ((title ++ ' ' :: summary).map pyLower))).length
           else 0)
        + 3 * (keywords.filter (fun kw => strIn kw.1 (title.map pyLower))).length,
       (keywords.filter
          (fun kw => strIn kw.1 ((title ++ ' ' :: summary).map pyLower))).map
            (fun kw => kw.1)) := by
  simp only [calculate_article_score, foldl_match_step, foldl_title_bonus,
    Nat.zero_add, List.nil_append, List.length_map, Prod.mk.injEq, and_true]
  split <;> omega

theorem score_fst (title summary : List Char) :
    (calculate_article_score title summary).1
    = ((keywords.filter
          (fun kw => strIn kw.1 ((title ++ ' ' :: summary).map pyLower))).map
            (fun kw => kw.2)).sum
      + (if 1 < (keywords.filter
            (fun kw => strIn kw.1 ((title ++ ' ' :: summary).map pyLower))).length
         then 2 * (keywords.filter
            (fun kw => strIn kw.1 ((title ++ ' ' :: summary).map pyLower))).length
         else 0)
      + 3 * (keywords.filter (fun kw => strIn kw.1 (title.map pyLower))).length := by
  rw [score_closed_form]

theorem matched_eq (title summary : List Char) :
    (calculate_article_score title summary).2
    = (keywords.filter
        (fun kw => strIn kw.1 ((title ++ ' ' :: summary).map pyLower))).map
          (fun kw => kw.1) := by
  rw [score_closed_form]

theorem filter_sublist_of_imp {α : Type} (l : List α) (p q : α → Bool)
    (h : ∀ a, p a = true → q a = true) : l.filter p <+ l.filter q := by
  induction l with
  | nil => simp
  | cons a l ih =>
    by_cases hp : p a = true
    · simpa [List.filter_cons, hp, h a hp] using ih.cons₂ a
    · by_cases hq : q a = true
      · simpa [List.filter_cons, hp, hq] using ih.cons a
      · simpa [List.filter_cons, hp, hq] using ih

theorem sublist_sum_le (l₁ l₂ : List Nat) (h : l₁ <+ l₂) : l₁.sum ≤ l₂.sum := by
  induction h with
  | slnil => simp
  | cons a h ih => simp only [List.sum_cons]; omega
  | cons₂ a h ih => simp only [List.sum_cons]; omega

theorem bonus_mono (a b n m t : Nat) (ha : a ≤ b) (hn : n ≤ m) :
    a + (if 1 < n then 2 * n else 0) + t ≤ b + (if 1 < m then 2 * m else 0) + t := by
  split <;> split <;> omega

theorem insertDesc_perm (x : Article) (l : List Article) : insertDesc x l ~ x :: l := by
  induction l with
  | nil => exact List.Perm.refl _
  | cons y ys ih =>
    simp only [insertDesc]
    split
    · exact List.Perm.refl _
    · exact (ih.cons y).trans (List.Perm.swap x y ys)

theorem sortByScoreDesc_perm (l : List Article) : sortByScoreDesc l ~ l := by
  induction l with
  | nil => exact List.Perm.refl _
  | cons x xs ih => exact (insertDesc_perm x (sortByScoreDesc xs)).trans (ih.cons x)

theorem insertDesc_pairwise (x : Article) (l : List Article)
    (h : l.Pairwise (fun a b => b.score ≤ a.score)) :
    (insertDesc x l).Pairwise (fun a b => b.score ≤ a.score) := by
  induction l with
  | nil => simp [insertDesc]
  | cons y ys ih =>
    rw [List.pairwise_cons] at h
    obtain ⟨hy, hys⟩ := h
    simp only [insertDesc]
    split
    · rename_i hle
      refine List.pairwise_cons.mpr ⟨?_, List.pairwise_cons.mpr ⟨hy, hys⟩⟩
      intro z hz
      rcases List.mem_cons.mp hz with rfl | hz'
      · exact hle
      · exact le_trans (hy z hz') hle
    · rename_i hgt
      push_neg at hgt
      refine List.pairwise_cons.mpr ⟨?_, ih hys⟩
      intro z hz
      have hz2 : z ∈ x :: ys := (insertDesc_perm x ys).mem_iff.mp hz
      rcases List.mem_cons.mp hz2 with rfl | hz'
      · exact le_of_lt hgt
      · exact hy z hz'

theorem sortByScoreDesc_pairwise (l : List Article) :
    (sortByScoreDesc l).Pairwise (fun a b => b.score ≤ a.score) := by
  induction l with
  | nil => simp [sortByScoreDesc]
  | cons x xs ih => exact insertDesc_pairwise x (sortByScoreDesc xs) ih

theorem insertDesc_filter (s : Nat) (x : Article) (l : List Article) :
    (insertDesc x l).filter (fun a => a.score == s)
    = if x.score == s then x :: l.filter (fun a => a.score == s)
      else l.filter (fun a => a.score == s) := by
  induction l with
  | nil => simp [insertDesc, List.filter_cons]
  | cons y ys ih =>
    simp only [insertDesc]
    split
    · simp [List.filter_cons]
    · rename_i hgt
      push_neg at hgt
      by_cases hx : (x.score == s) = true
      · have hxs : x.score = s := by simpa using hx
        have hy : (y.score == s) = false := by
          simp only [beq_eq_false_iff_ne]
          omega
        simp [List.filter_cons, ih, hx, hy]
      · have hx' : (x.score == s) = false := by
          simpa using hx
        simp [List.filter_cons, ih, hx']

theorem sortByScoreDesc_filter (s : Nat) (l : List Article) :
    (sortByScoreDesc l).filter (fun a => a.score == s)
    = l.filter (fun a => a.score == s) := by
  induction l with
  | nil => rfl
  | cons x xs ih => simp [sortByScoreDesc, insertDesc_filter, ih, List.filter_cons]

theorem process_entry_scores (acc : List Article × List (List Char)) (src : List Char)
    (e : Entry) (a : Article) (ha : a ∈ (process_entry acc src e).1) :
    a ∈ acc.1 ∨ 8 ≤ a.score := by
  simp only [process_entry] at ha
  split at ha
  · exact Or.inl ha
  · split at ha
    · rename_i hsc
      rcases List.mem_append.mp ha with h | h
      · exact Or.inl h
      · rcases List.mem_singleton.mp h with rfl
        exact Or.inr hsc
    · exact Or.inl ha

theorem foldl_process_scores (es : List Entry) (src : List Char)
    (acc : List Article × List (List Char))
    (hacc : ∀ a ∈ acc.1, 8 ≤ a.score) :
    ∀ a ∈ (List.foldl (fun acc e => process_entry acc src e) acc es).1, 8 ≤ a.score := by
  induction es generalizing acc with
  | nil => simpa using hacc
  | cons e es ih =>
    intro a ha
    refine ih (process_entry acc src e) ?_ a ha
    intro b hb
    rcases process_entry_scores acc src e b hb with h | h
    · exact hacc b h
    · exact h

theorem fetch_articles_scores (f : Feed) (c : List (List Char)) :
    ∀ a ∈ (fetch_articles_from_feed f c).1, 8 ≤ a.score := by
  simp only [fetch_articles_from_feed]
  split
  · simp
  · exact foldl_process_scores _ _ _ (by simp)

theorem foldl_ingest_scores (feeds : List Feed)
    (acc : List Article × List (List Char))
    (hacc : ∀ a ∈ acc.1, 8 ≤ a.score) :
    ∀ a ∈ (List.foldl (fun acc f =>
        let r := fetch_articles_from_feed f acc.2
        (acc.1 ++ r.1, r.2)) acc feeds).1, 8 ≤ a.score := by
  induction feeds generalizing acc with
  | nil => simpa using hacc
  | cons f fs ih =>
    intro a ha
    refine ih _ ?_ a ha
    intro b hb
    simp only [] at hb
    rcases List.mem_append.mp hb with h | h
    · exact hacc b h
    · exact fetch_articles_scores f acc.2 b h

theorem ingest_all_scores (feeds : List Feed) (c : List (List Char)) :
    ∀ a ∈ (ingest_all feeds c).1, 8 ≤ a.score := by
  simp only [ingest_all]
  exact foldl_ingest_scores feeds ([], c) (by simp)

/-- Claim C1: for every title, summary and the configured keyword table,
calculate_article_score returns (score, matchedKeywords) where matchedKeywords
is exactly the list of table keywords that are substrings of
lowercase(title ++ " " ++ summary) in table iteration order, and score is the
sum of the matched weights, plus 2 * matchCount when matchCount > 1 (else 0),
plus a flat 3 points per table keyword occurring in lowercase(title). -/
theorem calculate_article_score_spec (title summary : List Char) :
    calculate_article_score title summary
    = (((keywords.filter
          (fun kw => strIn kw.1 ((title ++ ' ' :: summary).map pyLower))).map
            (fun kw => kw.2)).sum
        + (if 1 < (keywords.filter
              (fun kw => strIn kw.1 ((title ++ ' ' :: summary).map pyLower))).length
           then 2 * (keywords.filter
              (fun kw => strIn kw.1 ((title ++ ' ' :: summary).map pyLower))).length
           else 0)
        + 3 * (keywords.filter (fun kw => strIn kw.1 (title.map pyLower))).length,
       (keywords.filter
          (fun kw => strIn kw.1 ((title ++ ' ' :: summary).map pyLower))).map
            (fun kw => kw.1)) :=
  score_closed_form title summary

/-- Claim C2: for every run of the fetch-and-rank pipeline, the returned
sequence is sorted by score in descending order, equal scores keep their
original encounter order (each equal-score slice of the output is a sublist
of the corresponding slice of the concatenated ingestion results), the length
is at most the run limit 5, and when at most 5 articles qualify all of them
are returned (the output is a permutation of the input). -/
theorem fetch_all_articles_ranked (feeds : List Feed) (cache : List (List Char)) :
    (fetch_all_articles feeds cache).Pairwise (fun a b => b.score ≤ a.score)
  ∧ (∀ s : Nat, (fetch_all_articles feeds cache).filter (fun a => a.score == s)
      <+ (ingest_all feeds cache).1.filter (fun a => a.score == s))
  ∧ (fetch_all_articles feeds cache).length = min 5 (ingest_all feeds cache).1.length
  ∧ ((ingest_all feeds cache).1.length ≤ 5 →
      fetch_all_articles feeds cache ~ (ingest_all feeds cache).1) := by
  unfold fetch_all_articles
  refine ⟨?_, ?_, ?_, ?_⟩
  · exact (sortByScoreDesc_pairwise _).sublist (List.take_sublist 5 _)
  · intro s
    have h1 := (List.take_sublist 5
      (sortByScoreDesc (ingest_all feeds cache).1)).filter (fun a => a.score == s)
    rwa [sortByScoreDesc_filter] at h1
  · rw [List.length_take, (sortByScoreDesc_perm (ingest_all feeds cache).1).length_eq]
  · intro hle
    have hlen : (sortByScoreDesc (ingest_all feeds cache).1).length ≤ 5 := by
      rw [(sortByScoreDesc_perm _).length_eq]
      exact hle
    rw [List.take_of_length_le hlen]
    exact sortByScoreDesc_perm _

theorem fetch_all_articles_ranked_witness :
    (fetch_all_articles [] []).Pairwise (fun a b => b.score ≤ a.score)
  ∧ fetch_all_articles [] [] ~ (ingest_all [] []).1 :=
  ⟨(fetch_all_articles_ranked [] []).1,
   (fetch_all_articles_ranked [] []).2.2.2 (by decide)⟩

/-- Claim C3: every ScoredArticle emitted by fetch_articles_from_feed, and
hence every article returned by fetch_all_articles, has score at least the
minimum threshold 8. -/
theorem min_score_threshold (f : Feed) (feeds : List Feed)
    (c c' : List (List Char)) (a : Article) :
    (a ∈ (fetch_articles_from_feed f c).1 → 8 ≤ a.score)
  ∧ (a ∈ fetch_all_articles feeds c' → 8 ≤ a.score) := by
  constructor
  · exact fun ha => fetch_articles_scores f c a ha
  · intro ha
    have h1 : a ∈ sortByScoreDesc (ingest_all feeds c').1 :=
      List.take_subset 5 (sortByScoreDesc (ingest_all feeds c').1)
        (by simpa [fetch_all_articles] using ha)
    have h2 : a ∈ (ingest_all feeds c').1 :=
      (sortByScoreDesc_perm _).mem_iff.mp h1
    exact ingest_all_scores feeds c' a h2

theorem min_score_threshold_witness : 8 ≤ sampleArticle.score :=
  (min_score_threshold sampleFeed [] [] [] sampleArticle).1 (by decide)

/-- Claim C4: ingesting the same entry twice in sequence yields at most one
ScoredArticle across both ingestions: when the first ingestion accepts the
entry (id not yet cached and score at least 8) it emits exactly one article
and registers the id, and a second ingestion of an entry with the same id
against the updated cache emits nothing. -/
theorem dedup_second_suppressed (c : List (List Char)) (t t' : Option (List Char))
    (e e' : Entry) (hid : entryId e' = entryId e) (hnew : entryId e ∉ c)
    (hsc : 8 ≤ (calculate_article_score (clean_text e.title)
      (clean_text (entrySummary e))).1) :
    (fetch_articles_from_feed ⟨[e], t⟩ c).1.length = 1
  ∧ (fetch_articles_from_feed ⟨[e'], t'⟩
      (fetch_articles_from_feed ⟨[e], t⟩ c).2).1 = [] := by
  have key : fetch_articles_from_feed ⟨[e], t⟩ c
      = ([⟨entryId e, clean_text e.title, e.link,
            create_sample_copy (clean_text e.title) (clean_text (entrySummary e)) 140,
            (calculate_article_score (clean_text e.title) (clean_text (entrySummary e))).1,
            (calculate_article_score (clean_text e.title) (clean_text (entrySummary e))).2,
            e.publishedOpt.getD "Unknown".data, t.getD "Unknown Source".data⟩],
         entryId e :: c) := by
    simp [fetch_articles_from_feed, process_entry, hnew, hsc]
  refine ⟨by simp [key], ?_⟩
  rw [key]
  simp [fetch_articles_from_feed, process_entry, hid]

theorem dedup_second_suppressed_witness :
    (fetch_articles_from_feed ⟨[sampleEntry], none⟩ []).1.length = 1
  ∧ (fetch_articles_from_feed ⟨[sampleEntry], none⟩
      (fetch_articles_from_feed ⟨[sampleEntry], none⟩ []).2).1 = [] :=
  dedup_second_suppressed [] none none sampleEntry sampleEntry rfl
    (by decide) (by decide)

/-- Claim C5, counterexample: the claimed bound len(sampleCopy) <= maxLen
fails on the code for maxLen = 2, because the truncation index is the Python
slice combined[:maxLen-3] with a negative bound, not a clamped one. -/
theorem create_sample_copy_bound_fails :
    ¬ ((create_sample_copy [] ("hello world".data) 2).length ≤ 2) := by decide

/-- Claim C5 (amended): for maxLen at least 3 the sample copy has length at
most maxLen, and whenever the pre-truncation combined text exceeds maxLen the
result ends in "..."; for maxLen below 3 the code applies a negative Python
slice instead of clamping, so the length bound does not hold there. -/
theorem create_sample_copy_truncation (title summary : List Char) (max_length : Nat) :
    (3 ≤ max_length →
      (create_sample_copy title summary max_length).length ≤ max_length)
  ∧ (max_length < (sample_combined title summary).length →
      "...".data <:+ create_sample_copy title summary max_length) := by
  constructor
  · intro h3
    simp only [create_sample_copy]
    split
    · rename_i hlt
      rw [List.length_append]
      have htk : (pyTake ((max_length : Int) - 3) (sample_combined title summary)).length
          ≤ max_length - 3 := by
        simp only [pyTake]
        rw [if_pos (by omega : (0:Int) ≤ (max_length : Int) - 3)]
        rw [List.length_take]
        have he : ((max_length : Int) - 3).toNat = max_length - 3 := by omega
        rw [he]
        exact Nat.min_le_left _ _
      have hd : ("...".data).length = 3 := rfl
      have hd2 : (['.', '.', '.'] : List Char).length = 3 := rfl
      omega
    · rename_i hge
      push_neg at hge
      exact hge
  · intro hlt
    simp only [create_sample_copy]
    rw [if_pos hlt]
    exact List.suffix_append _ _

theorem create_sample_copy_truncation_witness :
    (create_sample_copy [] ("hello world".data) 3).length ≤ 3
  ∧ "...".data <:+ create_sample_copy [] ("hello world".data) 3 :=
  ⟨(create_sample_copy_truncation [] ("hello world".data) 3).1 (by decide),
   (create_sample_copy_truncation [] ("hello world".data) 3).2 (by decide)⟩

/-- Claim C6: the claim fails on the code as a code bug.  clean_text is
documented in the source as collapsing whitespace runs and stripping
newline/carriage-return characters, but the pattern it compiles matches a
literal backslash followed by letters s, and the replace calls target the
two-character sequences backslash-n and backslash-r; on the input
"a  b\nc" the code returns the input unchanged, keeping a run of two spaces
and a newline character. -/
theorem clean_text_whitespace_bug :
    clean_text ("a  b\nc".data) = ("a  b\nc".data)
  ∧ strIn (' ' :: ' ' :: []) (clean_text ("a  b\nc".data)) = true
  ∧ '\n' ∈ clean_text ("a  b\nc".data) := by decide

/-- Claim C7: extending the summary with additional text containing a table
keyword never decreases the score (the proof shows monotonicity under any
extension of the summary). -/
theorem score_monotone_extension (title summary extra : List Char)
    (_hkw : ∃ kw ∈ keywords, strIn kw.1 (extra.map pyLower) = true) :
    (calculate_article_score title summary).1
    ≤ (calculate_article_score title (summary ++ extra)).1 := by
  rw [score_fst, score_fst]
  have hsub : keywords.filter
      (fun kw => strIn kw.1 ((title ++ ' ' :: summary).map pyLower))
      <+ keywords.filter
      (fun kw => strIn kw.1 ((title ++ ' ' :: (summary ++ extra)).map pyLower)) :=
    filter_sublist_of_imp keywords _ _
      (fun kw h => strIn_content_extend kw.1 title summary extra h)
  have hsum := sublist_sum_le _ _ (hsub.map (fun kw => kw.2))
  have hlen := hsub.length_le
  exact bonus_mono _ _ _ _ _ hsum hlen

theorem score_monotone_extension_witness :
    (calculate_article_score [] []).1
    ≤ (calculate_article_score [] ([] ++ "web3".data)).1 :=
  score_monotone_extension [] [] ("web3".data) (by decide)

/-- Claim C8: after a cleanup pass the dedup cache never exceeds 1000 ids,
and when cleanup is triggered because the cache holds more than 1000 ids the
resulting cache holds exactly 500 entries, each drawn from the pre-cleanup
set. -/
theorem cleanup_bounds (c : List (List Char)) :
    (cleanup_processed_articles c).length ≤ 1000
  ∧ (1000 < c.length →
      (cleanup_processed_articles c).length = 500
      ∧ cleanup_processed_articles c ⊆ c) := by
  unfold cleanup_processed_articles
  split
  · rename_i h
    refine ⟨?_, fun _ => ⟨?_, List.drop_subset _ _⟩⟩
    · rw [List.length_drop]; omega
    · rw [List.length_drop]; omega
  · rename_i h
    push_neg at h
    exact ⟨h, fun h1000 => absurd h1000 (by omega)⟩

theorem cleanup_bounds_witness :
    (cleanup_processed_articles sampleCache).length = 500
  ∧ cleanup_processed_articles sampleCache ⊆ sampleCache :=
  (cleanup_bounds sampleCache).2 (by
    show 1000 < (List.replicate 1001 (['a'] : List Char)).length
    rw [List.length_replicate]
    decide)

/-- Claim C9: the score is zero exactly when no keyword matched the content;
all configured weights are positive, and a keyword occurring in the title
also occurs in the content, so the flat title bonus cannot fire without a
content match. -/
theorem score_zero_iff_no_matches (title summary : List Char) :
    (calculate_article_score title summary).1 = 0
    ↔ (calculate_article_score title summary).2 = [] := by
  rw [score_fst, matched_eq]
  constructor
  · intro h0
    have hA : ((keywords.filter
        (fun kw => strIn kw.1 ((title ++ ' ' :: summary).map pyLower))).map
          (fun kw => kw.2)).sum = 0 := by
      split at h0 <;> omega
    have hfil : keywords.filter
        (fun kw => strIn kw.1 ((title ++ ' ' :: summary).map pyLower)) = [] := by
      by_contra hne
      obtain ⟨kw, hkw⟩ := List.exists_mem_of_ne_nil _ hne
      have hz : kw.2 = 0 :=
        List.sum_eq_zero_iff.mp hA _ (List.mem_map_of_mem _ hkw)
      have hmem : kw ∈ keywords := List.mem_of_mem_filter hkw
      have hpos := keywords_pos kw hmem
      omega
    rw [hfil]
    rfl
  · intro hnil
    have hfil : keywords.filter
        (fun kw => strIn kw.1 ((title ++ ' ' :: summary).map pyLower)) = [] :=
      List.map_eq_nil_iff.mp hnil
    have hnp := List.filter_eq_nil_iff.mp hfil
    have hq : keywords.filter (fun kw => strIn kw.1 (title.map pyLower)) = [] := by
      apply List.filter_eq_nil_iff.mpr
      intro kw hkw hqt
      exact hnp kw hkw (strIn_title_content kw.1 title summary hqt)
    rw [hfil, hq]
    simp

/-- Claim C10: when the dedup cache holds at most 1000 ids, a cleanup pass
leaves it exactly unchanged, and in every case the cache after cleanup is a
subset of the cache before. -/
theorem cleanup_frame (c : List (List Char)) :
    (c.length ≤ 1000 → cleanup_processed_articles c = c)
  ∧ cleanup_processed_articles c ⊆ c := by
  unfold cleanup_processed_articles
  split
  · rename_i h
    exact ⟨fun hle => absurd h (by omega), List.drop_subset _ _⟩
  · exact ⟨fun _ => rfl, fun a ha => ha⟩

theorem cleanup_frame_witness :
    cleanup_processed_articles [['a']] = [['a']] :=
  (cleanup_frame [['a']]).1 (by decide)
